import Mathlib

/-!
Shallow embedding of `src/cpp/grover_accelerator.cpp`.

Sequences and patterns are lists of characters.  C++ `size_t` arithmetic on
in-memory lengths is modelled by `Nat`; the `int` parameters exposed to callers
are modelled by `Int`, with the implicit `int → size_t` conversion made
explicit where the source performs it.  `std::complex<double>` values that the
oracle builder produces are only ever `±1 + 0i`, which doubles represent
exactly, so they are modelled as pairs of rationals.  Operations whose C++
counterpart can hit undefined behaviour (out-of-bounds write, division by a
zero divisor) return `Option`, with `none` marking the bad execution.
-/

namespace GroverAccelerator

/-- Inner comparison loop of both matchers: character-by-character test of
`pattern` against `sequence` at start offset `i` (source lines 62–68 and
99–105). -/
def matchAt (sequence pattern : List Char) (i : Nat) : Bool :=
  (List.range pattern.length).all fun j =>
    sequence.getD (i + j) ' ' == pattern.getD j ' '

/-- Serial matcher `find_pattern_matches` (source lines 47–75). -/
def find_pattern_matches (sequence pattern : List Char) : List Nat :=
  if pattern.length = 0 ∨ sequence.length = 0 ∨ sequence.length < pattern.length then
    []
  else
    (List.range (sequence.length - pattern.length + 1)).filter (matchAt sequence pattern)

/-- C++ conversion of an `int` to the 64-bit unsigned `size_t`. -/
def size_t_of_int (n : Int) : Nat :=
  (n % (2 ^ 64 : Int)).toNat

/-- Index ranges scanned by the first `t` workers of the parallel matcher:
worker `t` scans `[t * chunk_size, e)` where `e` is `search_len` for the last
worker (`t = k - 1`) and `(t + 1) * chunk_size` otherwise (source lines 91–93). -/
def scanned_offsets (search_len chunk_size k : Nat) : Nat → List Nat
  | 0 => []
  | t + 1 =>
    scanned_offsets search_len chunk_size k t ++
      List.range' (t * chunk_size)
        ((if t = k - 1 then search_len else (t + 1) * chunk_size) - t * chunk_size)

/-- Concatenated local match lists of the first `t` workers, in worker order
(source lines 90–120). -/
def collect_workers (sequence pattern : List Char) (search_len chunk_size k : Nat) :
    Nat → List Nat
  | 0 => []
  | t + 1 =>
    collect_workers sequence pattern search_len chunk_size k t ++
      (List.range' (t * chunk_size)
        ((if t = k - 1 then search_len else (t + 1) * chunk_size) - t * chunk_size)).filter
        (matchAt sequence pattern)

/-- Parallel matcher `find_pattern_matches_parallel` (source lines 80–125).
`none` marks the division by a zero divisor that `num_threads = 0` causes in
`search_len / num_threads`; the loop `for (int t = 0; t < num_threads; ++t)`
runs `num_threads.toNat` times. -/
def find_pattern_matches_parallel (sequence pattern : List Char) (num_threads : Int) :
    Option (List Nat) :=
  if pattern.length = 0 ∨ sequence.length = 0 ∨ sequence.length < pattern.length then
    some []
  else if size_t_of_int num_threads = 0 then
    none
  else
    some ((collect_workers sequence pattern (sequence.length - pattern.length + 1)
      ((sequence.length - pattern.length + 1) / size_t_of_int num_threads)
      num_threads.toNat num_threads.toNat).mergeSort fun a b => decide (a ≤ b))

/-- Position encoder `encode_positions` (source lines 26–42): for each `pos`
below `num_candidates`, emit the bits `(pos >> bit) & 1` for `bit` from
`n_qubits - 1` down to `0`. -/
def encode_positions (num_candidates n_qubits : Nat) : List (List Char) :=
  (List.range num_candidates).map fun pos =>
    (List.range n_qubits).reverse.map fun bit =>
      if (pos >>> bit) &&& 1 = 1 then '1' else '0'

/-- Reading a list of `'0'`/`'1'` characters as an unsigned base-2 numeral,
most significant digit first.  Spec-side decoder used to state the round-trip
property. -/
def bits_to_nat (s : List Char) : Nat :=
  s.foldl (fun acc c => 2 * acc + (if c = '1' then 1 else 0)) 0

/-- Value of a `std::complex<double>` as an exact pair; the oracle builder only
ever stores `±1 + 0i`, which doubles represent exactly. -/
structure Cplx where
  re : ℚ
  im : ℚ
deriving DecidableEq

/-- The diagonal entry `+1`. -/
def oneC : Cplx := ⟨1, 0⟩

/-- The diagonal entry `-1`. -/
def negOneC : Cplx := ⟨-1, 0⟩

/-- Loop body of `build_oracle_diagonal` (source lines 135–139): the write
`diagonal[match] = -1` is guarded only by `match < database_size`; a negative
`match` passes the guard and indexes out of bounds, modelled as `none`. -/
def oracle_step (database_size : Nat) (acc : Option (List Cplx)) (m : Int) :
    Option (List Cplx) :=
  acc.bind fun d =>
    if m < (database_size : Int) then
      if 0 ≤ m then some (d.set m.toNat negOneC) else none
    else
      some d

/-- Oracle builder `build_oracle_diagonal` (source lines 130–141): a vector of
`database_size` entries `+1`, then one guarded write per element of the match
list. -/
def build_oracle_diagonal (matchList : List Int) (database_size : Nat) :
    Option (List Cplx) :=
  matchList.foldl (oracle_step database_size)
    (some (List.replicate database_size oneC))

/-- Iteration calculator `calculate_optimal_iterations` (source lines 146–155),
with double arithmetic modelled exactly over the reals. -/
noncomputable def calculate_optimal_iterations (total_items marked_items : Int) : Int :=
  if marked_items ≤ 0 ∨ total_items ≤ 0 then
    1
  else
    max 1 ⌊(Real.pi / 4) * Real.sqrt ((total_items : ℝ) / (marked_items : ℝ))⌋

/-- Accumulation loop of `analyze_measurement_statistics` (source lines
167–177): running total of all counts and running maximum count, in iteration
order. -/
def scan_counts (counts : List (String × Nat)) : Nat × Nat :=
  counts.foldl (fun acc p => (acc.1 + p.2, if acc.2 < p.2 then p.2 else acc.2)) (0, 0)

/-- Division of two doubles, modelled exactly: `none` marks the non-finite
result produced by a zero divisor. -/
def qdiv (a b : ℚ) : Option ℚ :=
  if b = 0 then none else some (a / b)

/-- Shannon entropy loop `calculate_shannon_entropy` (source lines 194–205).
When no count is positive the loop never divides and returns exactly `0.0`;
otherwise a non-positive `total_shots` makes some term non-finite (`∞`, or the
logarithm of a non-positive probability), modelled as `none`. -/
noncomputable def calculate_shannon_entropy (counts : List (String × Nat))
    (total_shots : Int) : Option ℝ :=
  if counts.all fun p => p.2 = 0 then
    some 0
  else if total_shots ≤ 0 then
    none
  else
    some (counts.foldl
      (fun e p =>
        if 0 < p.2 then
          e - ((p.2 : ℝ) / (total_shots : ℝ)) * Real.logb 2 ((p.2 : ℝ) / (total_shots : ℝ))
        else
          e)
      0)

/-- Report returned by the statistics analyzer; field values are the exact
values of the doubles the source stores in its result map, `none` marking a
non-finite double. -/
structure MeasurementStats where
  success_probability : Option ℚ
  max_amplitude : Option ℚ
  entropy : Option ℝ
  num_unique_states : ℚ

/-- Statistics analyzer `analyze_measurement_statistics` (source lines
160–188).  `expected_matches` is accepted and ignored, as in the source, where
the match-decoding step is left unimplemented and every count is added to
`total_match_shots`. -/
noncomputable def analyze_measurement_statistics (counts : List (String × Nat))
    (expected_matches : List Int) (total_shots : Int) : MeasurementStats :=
  { success_probability := qdiv ((scan_counts counts).1 : ℚ) (total_shots : ℚ)
    max_amplitude := qdiv ((scan_counts counts).2 : ℚ) (total_shots : ℚ)
    entropy := calculate_shannon_entropy counts total_shots
    num_unique_states := (counts.length : ℚ) }

/-! Section: Matcher lemmas -/

theorem matchAt_iff {S P : List Char} {i : Nat} (h : i + P.length ≤ S.length) :
    matchAt S P i = true ↔ (S.drop i).take P.length = P := by
  unfold matchAt
  rw [List.all_eq_true]
  constructor
  · intro hall
    apply List.ext_getElem
    · simp only [List.length_take, List.length_drop]
      omega
    · intro j hj₁ hj₂
      have hjP : j < P.length := hj₂
      have hb := hall j (List.mem_range.mpr hjP)
      rw [beq_iff_eq] at hb
      rw [List.getD_eq_getElem S ' ' (by omega), List.getD_eq_getElem P ' ' hjP] at hb
      simpa [List.getElem_take, List.getElem_drop] using hb
  · intro hEq j hj
    have hjP : j < P.length := List.mem_range.mp hj
    have hiS : i + j < S.length := by omega
    have hlen : j < ((S.drop i).take P.length).length := by
      simp only [List.length_take, List.length_drop]
      omega
    have hq : ((S.drop i).take P.length)[j]? = P[j]? := by rw [hEq]
    rw [List.getElem?_eq_getElem hlen, List.getElem?_eq_getElem hjP] at hq
    have hq' := Option.some.inj hq
    simp only [List.getElem_take, List.getElem_drop] at hq'
    rw [beq_iff_eq, List.getD_eq_getElem S ' ' hiS, List.getD_eq_getElem P ' ' hjP]
    exact hq'

theorem mem_find_pattern_matches {S P : List Char} {i : Nat} :
    i ∈ find_pattern_matches S P ↔ P ≠ [] ∧ (S.drop i).take P.length = P := by
  unfold find_pattern_matches
  by_cases hdeg : P.length = 0 ∨ S.length = 0 ∨ S.length < P.length
  · rw [if_pos hdeg]
    simp only [List.not_mem_nil, false_iff]
    rintro ⟨hP, hEq⟩
    have hP1 : 0 < P.length := List.length_pos.mpr hP
    have hl := congrArg List.length hEq
    simp only [List.length_take, List.length_drop] at hl
    omega
  · rw [if_neg hdeg]
    push_neg at hdeg
    obtain ⟨hP0, hS0, hPS⟩ := hdeg
    simp only [List.mem_filter, List.mem_range]
    constructor
    · rintro ⟨hi, hm⟩
      have hbound : i + P.length ≤ S.length := by omega
      refine ⟨?_, (matchAt_iff hbound).mp hm⟩
      intro hnil
      rw [hnil] at hP0
      exact hP0 rfl
    · rintro ⟨hP, hEq⟩
      have hl := congrArg List.length hEq
      simp only [List.length_take, List.length_drop] at hl
      have hbound : i + P.length ≤ S.length := by omega
      exact ⟨by omega, (matchAt_iff hbound).mpr hEq⟩

theorem find_pattern_matches_sorted (S P : List Char) :
    List.Pairwise (· < ·) (find_pattern_matches S P) := by
  unfold find_pattern_matches
  split
  · exact List.Pairwise.nil
  · exact (List.pairwise_lt_range _).filter _

/-! Section: Chunk partition lemmas for the parallel matcher -/

theorem scanned_offsets_lt {c k : Nat} (s : Nat) :
    ∀ t, t < k → scanned_offsets s c k t = List.range (t * c) := by
  intro t
  induction t with
  | zero =>
    intro _
    simp [scanned_offsets]
  | succ t ih =>
    intro ht
    have htk : t < k := by omega
    have hne : t ≠ k - 1 := by omega
    rw [scanned_offsets, ih htk, if_neg hne]
    have h1 : (t + 1) * c - t * c = c := by
      rw [Nat.succ_mul]
      omega
    rw [h1]
    simp only [List.range_eq_range']
    have h2 := List.range'_append_1 0 (t * c) c
    simp only [Nat.zero_add] at h2
    have h3 : c + t * c = (t + 1) * c := by ring
    rw [h2, h3]

theorem scanned_offsets_cover {k : Nat} (hk : 1 ≤ k) (s : Nat) :
    scanned_offsets s (s / k) k k = List.range s := by
  obtain ⟨k', rfl⟩ : ∃ k', k = k' + 1 := ⟨k - 1, by omega⟩
  rw [scanned_offsets, scanned_offsets_lt s k' (Nat.lt_succ_self k')]
  simp only [Nat.add_sub_cancel, eq_self_iff_true, if_true]
  have hle : k' * (s / (k' + 1)) ≤ s := by
    calc k' * (s / (k' + 1)) ≤ (k' + 1) * (s / (k' + 1)) :=
          Nat.mul_le_mul_right _ (by omega)
    _ = (s / (k' + 1)) * (k' + 1) := Nat.mul_comm _ _
    _ ≤ s := Nat.div_mul_le_self s (k' + 1)
  simp only [List.range_eq_range']
  have h2 := List.range'_append_1 0 (k' * (s / (k' + 1))) (s - k' * (s / (k' + 1)))
  simp only [Nat.zero_add] at h2
  rw [h2]
  have h3 : (s - k' * (s / (k' + 1))) + k' * (s / (k' + 1)) = s := by omega
  rw [h3]

theorem collect_workers_eq_filter (S P : List Char) (s c k : Nat) :
    ∀ t, collect_workers S P s c k t = (scanned_offsets s c k t).filter (matchAt S P) := by
  intro t
  induction t with
  | zero => simp [collect_workers, scanned_offsets]
  | succ t ih => rw [collect_workers, scanned_offsets, List.filter_append, ih]

theorem parallel_eq_serial {k : Int} (hk1 : 1 ≤ k) (hk2 : k < 2 ^ 64) (S P : List Char) :
    find_pattern_matches_parallel S P k = some (find_pattern_matches S P) := by
  unfold find_pattern_matches_parallel find_pattern_matches
  by_cases hdeg : P.length = 0 ∨ S.length = 0 ∨ S.length < P.length
  · rw [if_pos hdeg, if_pos hdeg]
  · rw [if_neg hdeg, if_neg hdeg]
    have hsz : size_t_of_int k = k.toNat := by
      unfold size_t_of_int
      omega
    rw [hsz]
    rw [if_neg (by omega : ¬k.toNat = 0)]
    rw [collect_workers_eq_filter, scanned_offsets_cover (by omega : 1 ≤ k.toNat)]
    congr 1
    refine List.mergeSort_of_sorted ?_
    refine ((List.pairwise_lt_range _).filter _).imp ?_
    intro a b hab
    simpa using Nat.le_of_lt hab

/-! Section: Claim theorems for the matchers -/

/-- C2: `find_pattern_matches` returns the strictly ascending list of all
zero-based start positions at which the pattern occurs verbatim in the
sequence, including overlapping occurrences (in particular on `"AAAA"`/`"AA"`
it returns `[0, 1, 2]`), and returns the empty list on degenerate inputs. -/
theorem serial_matcher_correct :
    (∀ S P : List Char, List.Pairwise (· < ·) (find_pattern_matches S P))
  ∧ (∀ S P : List Char, ∀ i : Nat,
      i ∈ find_pattern_matches S P ↔ P ≠ [] ∧ (S.drop i).take P.length = P)
  ∧ (∀ S P : List Char, P = [] ∨ S = [] ∨ S.length < P.length →
      find_pattern_matches S P = [])
  ∧ find_pattern_matches ("AAAA".toList) ("AA".toList) = [0, 1, 2] := by
  refine ⟨find_pattern_matches_sorted, fun S P i => mem_find_pattern_matches, ?_, by decide⟩
  intro S P h
  unfold find_pattern_matches
  rw [if_pos]
  rcases h with h | h | h
  · exact Or.inl (by simp [h])
  · exact Or.inr (Or.inl (by simp [h]))
  · exact Or.inr (Or.inr h)

theorem serial_matcher_correct_witness :
    (0 ∈ find_pattern_matches ("AAAA".toList) ("AA".toList) ↔
      (("AA".toList) ≠ ([] : List Char) ∧
        (("AAAA".toList).drop 0).take ("AA".toList).length = ("AA".toList)))
  ∧ find_pattern_matches ("ATG".toList) ("".toList) = [] :=
  ⟨serial_matcher_correct.2.1 _ _ 0, serial_matcher_correct.2.2.1 _ _ (Or.inl rfl)⟩

/-- C1: for every sequence and pattern and every thread count in
`{1, 2, 3, 4, 8}`, the parallel matcher returns exactly the serial matcher's
sorted list of positions (and in particular does not hit the zero-divisor
path), including on degenerate inputs. -/
theorem parallel_matches_serial (S P : List Char) (k : Int)
    (hk : k ∈ ([1, 2, 3, 4, 8] : List Int)) :
    find_pattern_matches_parallel S P k = some (find_pattern_matches S P) := by
  have h1 : 1 ≤ k ∧ k < 2 ^ 64 := by
    simp only [List.mem_cons, List.mem_singleton, List.not_mem_nil, or_false] at hk
    rcases hk with rfl | rfl | rfl | rfl | rfl <;> constructor <;> decide
  exact parallel_eq_serial h1.1 h1.2 S P

theorem parallel_matches_serial_witness :
    (2 : Int) ∈ ([1, 2, 3, 4, 8] : List Int) ∧
      find_pattern_matches_parallel ("AAAA".toList) ("AA".toList) 2 =
        some (find_pattern_matches ("AAAA".toList) ("AA".toList)) :=
  ⟨by decide, parallel_matches_serial _ _ 2 (by decide)⟩

/-- C10: on non-degenerate inputs the chunk-size divisor of the parallel
matcher is zero exactly for `num_threads = 0` (making that call hit a division
by zero, modelled as `none`); for `num_threads ≥ 1` the chunks partition the
whole range of valid start offsets `[0, search_len)` exactly once; and for
negative `num_threads` no worker is created so the call returns the empty
list. -/
theorem parallel_thread_count_safety (S P : List Char)
    (h : ¬(P.length = 0 ∨ S.length = 0 ∨ S.length < P.length)) :
    find_pattern_matches_parallel S P 0 = none
  ∧ (∀ k : Int, -(2 ^ 64) < k → k < 2 ^ 64 → (size_t_of_int k = 0 ↔ k = 0))
  ∧ (∀ k : Int, 1 ≤ k →
      scanned_offsets (S.length - P.length + 1)
        ((S.length - P.length + 1) / k.toNat) k.toNat k.toNat =
        List.range (S.length - P.length + 1))
  ∧ (∀ k : Int, -(2 ^ 64) < k → k < 0 → find_pattern_matches_parallel S P k = some []) := by
  refine ⟨?_, ?_, ?_, ?_⟩
  · unfold find_pattern_matches_parallel
    rw [if_neg h, if_pos (by unfold size_t_of_int; decide)]
  · intro k hlo hhi
    unfold size_t_of_int
    omega
  · intro k hk
    exact scanned_offsets_cover (by omega) _
  · intro k hlo hneg
    unfold find_pattern_matches_parallel
    rw [if_neg h, if_neg (by unfold size_t_of_int; omega)]
    have h0 : k.toNat = 0 := by omega
    rw [h0]
    simp [collect_workers]

theorem parallel_thread_count_safety_witness :
    find_pattern_matches_parallel ("AAAA".toList) ("AA".toList) 0 = none
  ∧ find_pattern_matches_parallel ("AAAA".toList) ("AA".toList) (-3) = some [] :=
  ⟨(parallel_thread_count_safety ("AAAA".toList) ("AA".toList) (by decide)).1,
   (parallel_thread_count_safety ("AAAA".toList) ("AA".toList) (by decide)).2.2.2 (-3)
     (by decide) (by decide)⟩

/-! Section: Encoder lemmas -/

theorem bits_foldl_init (s : List Char) :
    ∀ a : Nat, s.foldl (fun acc c => 2 * acc + (if c = '1' then 1 else 0)) a
      = a * 2 ^ s.length + bits_to_nat s := by
  induction s with
  | nil =>
    intro a
    simp [bits_to_nat]
  | cons c s ih =>
    intro a
    simp only [List.foldl_cons, bits_to_nat, List.length_cons]
    rw [ih, ih]
    ring

theorem bits_to_nat_cons (c : Char) (s : List Char) :
    bits_to_nat (c :: s) = (if c = '1' then 1 else 0) * 2 ^ s.length + bits_to_nat s := by
  show List.foldl _ 0 (c :: s) = _
  rw [List.foldl_cons, bits_foldl_init]
  simp

theorem bits_of_encode (pos : Nat) :
    ∀ n : Nat, bits_to_nat ((List.range n).reverse.map fun bit =>
      if (pos >>> bit) &&& 1 = 1 then '1' else '0') = pos % 2 ^ n := by
  intro n
  induction n with
  | zero => simp [bits_to_nat, Nat.mod_one]
  | succ n ih =>
    rw [List.range_succ, List.reverse_append]
    simp only [List.reverse_cons, List.reverse_nil, List.nil_append, List.singleton_append]
    rw [List.map_cons, bits_to_nat_cons, ih]
    simp only [List.length_map, List.length_reverse, List.length_range]
    have hb : (pos >>> n) &&& 1 = (pos / 2 ^ n) % 2 := by
      rw [Nat.and_one_is_mod, Nat.shiftRight_eq_div_pow]
    have h2 : pos % 2 ^ (n + 1) = pos % 2 ^ n + 2 ^ n * (pos / 2 ^ n % 2) := by
      rw [pow_succ]
      exact Nat.mod_mul
    rw [hb, h2]
    rcases Nat.mod_two_eq_zero_or_one (pos / 2 ^ n) with h | h <;>
      rw [h] <;> simp [Nat.add_comm]

theorem encode_entry (nc n i : Nat) (hi : i < nc) :
    (encode_positions nc n).getD i [] =
      (List.range n).reverse.map fun bit => if (i >>> bit) &&& 1 = 1 then '1' else '0' := by
  unfold encode_positions
  rw [List.getD_eq_getElem _ _ (by simpa using hi)]
  simp

/-! Section: Claim theorems for the encoder -/

/-- C7: `encode_positions` returns `num_candidates` strings, each exactly
`n_qubits` characters drawn from `'0'`/`'1'`, and the string at index `i` is
the most-significant-bit-first, zero-padded binary expansion of `i`, silently
truncated to the low-order `n_qubits` bits (so its value reads back as
`i % 2 ^ n_qubits`). -/
theorem encode_positions_spec (num_candidates n_qubits : Nat) :
    (encode_positions num_candidates n_qubits).length = num_candidates
  ∧ ∀ i : Nat, i < num_candidates →
      ((encode_positions num_candidates n_qubits).getD i []).length = n_qubits
    ∧ (∀ c ∈ (encode_positions num_candidates n_qubits).getD i [], c = '0' ∨ c = '1')
    ∧ bits_to_nat ((encode_positions num_candidates n_qubits).getD i []) =
        i % 2 ^ n_qubits := by
  refine ⟨by simp [encode_positions], ?_⟩
  intro i hi
  rw [encode_entry _ _ _ hi]
  refine ⟨by simp, ?_, bits_of_encode i n_qubits⟩
  intro c hc
  simp only [List.mem_map, List.mem_reverse, List.mem_range] at hc
  obtain ⟨bit, _, rfl⟩ := hc
  split
  · exact Or.inr rfl
  · exact Or.inl rfl

theorem encode_positions_spec_witness :
    (encode_positions 5 3).length = 5
  ∧ bits_to_nat ((encode_positions 5 3).getD 4 []) = 4 % 2 ^ 3 :=
  ⟨(encode_positions_spec 5 3).1, ((encode_positions_spec 5 3).2 4 (by decide)).2.2⟩

/-- C8: for every `n` and every `i < 2 ^ n`, reading the `i`-th output of
`encode_positions (2 ^ n) n` back as an unsigned base-2 numeral yields `i`. -/
theorem encode_positions_round_trip (n i : Nat) (hi : i < 2 ^ n) :
    bits_to_nat ((encode_positions (2 ^ n) n).getD i []) = i := by
  rw [encode_entry _ _ _ hi, bits_of_encode, Nat.mod_eq_of_lt hi]

theorem encode_positions_round_trip_witness :
    bits_to_nat ((encode_positions (2 ^ 3) 3).getD 5 []) = 5 :=
  encode_positions_round_trip 3 5 (by decide)

/-! Section: Oracle lemmas -/

theorem oracle_step_some (N : Nat) (d : List Cplx) {m : Int} (hm : 0 ≤ m) :
    oracle_step N (some d) m =
      some (if m < (N : Int) then d.set m.toNat negOneC else d) := by
  unfold oracle_step
  by_cases h : m < (N : Int)
  · simp [h, hm]
  · simp [h]

theorem oracle_fold_none (N : Nat) : ∀ ms : List Int,
    ms.foldl (oracle_step N) none = none := by
  intro ms
  induction ms with
  | nil => rfl
  | cons m ms ih =>
    simp only [List.foldl_cons]
    exact ih

theorem oracle_fold_some (N : Nat) (ms : List Int) :
    ∀ d : List Cplx, (∀ m ∈ ms, 0 ≤ m) →
      ms.foldl (oracle_step N) (some d) =
        some (ms.foldl
          (fun d m => if m < (N : Int) then d.set m.toNat negOneC else d) d) := by
  induction ms with
  | nil =>
    intro d _
    rfl
  | cons m ms ih =>
    intro d hpos
    have hm : 0 ≤ m := hpos m (List.mem_cons_self m ms)
    simp only [List.foldl_cons]
    rw [oracle_step_some N d hm]
    exact ih _ fun x hx => hpos x (List.mem_cons_of_mem _ hx)

theorem oracle_pure_fold (N : Nat) (ms : List Int) :
    ∀ d : List Cplx, d.length = N → (∀ m ∈ ms, 0 ≤ m) →
      (ms.foldl (fun d m => if m < (N : Int) then d.set m.toNat negOneC else d) d).length = N
    ∧ ∀ i : Nat, i < N →
        (ms.foldl (fun d m => if m < (N : Int) then d.set m.toNat negOneC else d) d).getD i oneC
          = if (i : Int) ∈ ms then negOneC else d.getD i oneC := by
  induction ms with
  | nil =>
    intro d hlen _
    refine ⟨hlen, ?_⟩
    intro i _
    simp
  | cons m ms ih =>
    intro d hlen hpos
    have hm : 0 ≤ m := hpos m (List.mem_cons_self m ms)
    have hlen' : (if m < (N : Int) then d.set m.toNat negOneC else d).length = N := by
      by_cases h : m < (N : Int) <;> simp [h, hlen]
    obtain ⟨ihlen, ihpt⟩ :=
      ih (if m < (N : Int) then d.set m.toNat negOneC else d) hlen'
        fun x hx => hpos x (List.mem_cons_of_mem _ hx)
    refine ⟨by simpa using ihlen, ?_⟩
    intro i hi
    simp only [List.foldl_cons]
    rw [ihpt i hi]
    by_cases hmem : (i : Int) ∈ ms
    · rw [if_pos hmem, if_pos (List.mem_cons_of_mem _ hmem)]
    · rw [if_neg hmem]
      by_cases heq : m = (i : Int)
      · rw [heq]
        rw [if_pos (show ((i : Nat) : Int) < (N : Int) by omega),
          if_pos (heq ▸ List.mem_cons_self m ms)]
        have hti : ((i : Nat) : Int).toNat = i := by omega
        rw [hti, List.getD_eq_getElem _ _ (by simp [hlen, hi]), List.getElem_set_self]
      · have hne : ¬(i : Int) ∈ m :: ms := by
          intro hc
          rcases List.mem_cons.mp hc with hc | hc
          · exact heq hc.symm
          · exact hmem hc
        rw [if_neg hne]
        by_cases hmN : m < (N : Int)
        · rw [if_pos hmN]
          have hti : m.toNat ≠ i := by omega
          rw [List.getD_eq_getElem _ _ (by simp [hlen, hi]),
            List.getD_eq_getElem _ _ (by simp [hlen, hi]), List.getElem_set_ne hti]
        · rw [if_neg hmN]

theorem build_oracle_some (N : Nat) (ms : List Int) (hpos : ∀ m ∈ ms, 0 ≤ m) :
    ∃ d : List Cplx, build_oracle_diagonal ms N = some d
      ∧ d.length = N
      ∧ ∀ i : Nat, i < N →
          d.getD i oneC = if (i : Int) ∈ ms then negOneC else oneC := by
  unfold build_oracle_diagonal
  rw [oracle_fold_some N ms _ hpos]
  refine ⟨_, rfl, (oracle_pure_fold N ms _ (by simp) hpos).1, ?_⟩
  intro i hi
  rw [(oracle_pure_fold N ms _ (by simp) hpos).2 i hi]
  by_cases hmem : (i : Int) ∈ ms
  · rw [if_pos hmem, if_pos hmem]
  · rw [if_neg hmem, if_neg hmem,
      List.getD_eq_getElem _ _ (by simp [hi]), List.getElem_replicate]

theorem count_neg_entries (N : Nat) (ms : List Int) (hpos : ∀ m ∈ ms, 0 ≤ m) :
    (((List.range N).map fun i : Nat => if (i : Int) ∈ ms then negOneC else oneC).filter
        fun c => decide (c = negOneC)).length
      = ((ms.filter fun m => decide (m < (N : Int))).dedup).length := by
  rw [List.filter_map, List.length_map]
  have hcong : ∀ i ∈ List.range N,
      ((fun c => decide (c = negOneC)) ∘
          fun i : Nat => if (i : Int) ∈ ms then negOneC else oneC) i
        = decide ((i : Int) ∈ ms) := by
    intro i _
    by_cases h : (i : Int) ∈ ms
    · simp [h]
    · have h1 : ¬oneC = negOneC := by
        intro hc
        have h2 : (1 : ℚ) = -1 := congrArg Cplx.re hc
        norm_num at h2
      simp only [Function.comp_apply, if_neg h]
      rw [decide_eq_false h1, decide_eq_false h]
  rw [List.filter_congr hcong]
  have hnd₁ : ((List.range N).filter fun i : Nat => decide ((i : Int) ∈ ms)).Nodup :=
    ((List.pairwise_lt_range N).filter _).imp Nat.ne_of_lt
  have hnd₁' : (((List.range N).filter fun i : Nat => decide ((i : Int) ∈ ms)).map
      fun i : Nat => (i : Int)).Nodup :=
    hnd₁.map fun a b hab => Int.natCast_inj.mp hab
  have hnd₂ : ((ms.filter fun m => decide (m < (N : Int))).dedup).Nodup :=
    List.nodup_dedup _
  have hperm : List.Perm
      (((List.range N).filter fun i : Nat => decide ((i : Int) ∈ ms)).map
        fun i : Nat => (i : Int))
      ((ms.filter fun m => decide (m < (N : Int))).dedup) := by
    rw [List.perm_ext_iff_of_nodup hnd₁' hnd₂]
    intro a
    simp only [List.mem_map, List.mem_filter, List.mem_range, List.mem_dedup,
      decide_eq_true_eq]
    constructor
    · rintro ⟨i, ⟨hiN, hims⟩, rfl⟩
      exact ⟨hims, by omega⟩
    · rintro ⟨hams, haN⟩
      have ha0 : 0 ≤ a := hpos a hams
      refine ⟨a.toNat, ⟨by omega, ?_⟩, by omega⟩
      rw [Int.toNat_of_nonneg ha0]
      exact hams
  have hlen := hperm.length_eq
  rw [List.length_map] at hlen
  exact hlen

/-! Section: Claim theorems for the oracle builder -/

/-- C3: on a match set (all positions non-negative), `build_oracle_diagonal`
returns a vector of exactly `database_size` complex entries, `-1` (zero
imaginary part) at each position of the match set below `database_size` and
`+1` elsewhere; positions `≥ database_size` are silently ignored, and the
number of `-1` entries is the number of distinct match positions below
`database_size`. -/
theorem build_oracle_diagonal_spec (matchList : List Int) (N : Nat)
    (hpos : ∀ m ∈ matchList, 0 ≤ m) :
    ∃ d : List Cplx, build_oracle_diagonal matchList N = some d
      ∧ d.length = N
      ∧ (∀ i : Nat, i < N →
          d.getD i oneC = if (i : Int) ∈ matchList then negOneC else oneC)
      ∧ (d.filter fun c => decide (c = negOneC)).length =
          ((matchList.filter fun m => decide (m < (N : Int))).dedup).length := by
  obtain ⟨d, hd, hlen, hpt⟩ := build_oracle_some N matchList hpos
  have hmap : d = (List.range N).map
      fun i : Nat => if (i : Int) ∈ matchList then negOneC else oneC := by
    apply List.ext_getElem
    · simp [hlen]
    · intro i h₁ h₂
      have hiN : i < N := by omega
      have hgd := hpt i hiN
      rw [List.getD_eq_getElem _ _ h₁] at hgd
      simpa using hgd
  refine ⟨d, hd, hlen, hpt, ?_⟩
  rw [hmap]
  exact count_neg_entries N matchList hpos

theorem build_oracle_diagonal_spec_witness :
    ∃ d : List Cplx, build_oracle_diagonal [0, 2, 5] 4 = some d
      ∧ d.length = 4
      ∧ (∀ i : Nat, i < 4 →
          d.getD i oneC = if (i : Int) ∈ [0, 2, 5] then negOneC else oneC)
      ∧ (d.filter fun c => decide (c = negOneC)).length =
          (([0, 2, 5].filter fun m : Int => decide (m < (4 : Int))).dedup).length :=
  build_oracle_diagonal_spec [0, 2, 5] 4 (by decide)

/-- C9: the guarded write of `build_oracle_diagonal` stays within the bounds of
the length-`database_size` vector for every element of the match list exactly
when every element is non-negative (so under that precondition the
out-of-bounds branch is unreachable), whereas positions `≥ database_size` are
silently ignored; a negative position instead makes the out-of-bounds write
happen. -/
theorem build_oracle_diagonal_bounds (matchList : List Int) (N : Nat) :
    ((build_oracle_diagonal matchList N).isSome ↔ ∀ m ∈ matchList, 0 ≤ m)
  ∧ ∀ m : Int, (N : Int) ≤ m →
      build_oracle_diagonal (matchList ++ [m]) N = build_oracle_diagonal matchList N := by
  constructor
  · unfold build_oracle_diagonal
    generalize List.replicate N oneC = d
    induction matchList generalizing d with
    | nil => simp
    | cons m ms ih =>
      simp only [List.foldl_cons]
      by_cases hm : 0 ≤ m
      · rw [oracle_step_some N d hm]
        rw [ih]
        constructor
        · intro h x hx
          rcases List.mem_cons.mp hx with rfl | hx
          · exact hm
          · exact h x hx
        · intro h x hx
          exact h x (List.mem_cons_of_mem _ hx)
      · have hstep : oracle_step N (some d) m = none := by
          unfold oracle_step
          have hmN : m < (N : Int) := by omega
          simp [hmN, hm]
        rw [hstep, oracle_fold_none]
        simp only [Option.isSome_none, Bool.false_eq_true, false_iff]
        intro h
        exact hm (h m (List.mem_cons_self m ms))
  · intro m hm
    unfold build_oracle_diagonal
    rw [List.foldl_append]
    cases hfold : matchList.foldl (oracle_step N) (some (List.replicate N oneC)) with
    | none => rfl
    | some d =>
      simp only [List.foldl_cons, List.foldl_nil]
      unfold oracle_step
      simp only [Option.some_bind]
      rw [if_neg (show ¬m < (N : Int) by omega)]

theorem build_oracle_diagonal_bounds_witness :
    ((build_oracle_diagonal [0, 1, -2] 3).isSome ↔ ∀ m ∈ ([0, 1, -2] : List Int), 0 ≤ m)
  ∧ build_oracle_diagonal ([0] ++ [7]) 3 = build_oracle_diagonal [0] 3 :=
  ⟨(build_oracle_diagonal_bounds [0, 1, -2] 3).1,
   (build_oracle_diagonal_bounds [0] 3).2 7 (by decide)⟩

/-! Section: Statistics lemmas -/

theorem scan_counts_eq (counts : List (String × Nat)) :
    scan_counts counts =
      ((counts.map Prod.snd).sum, (counts.map Prod.snd).foldr max 0) := by
  unfold scan_counts
  suffices h : ∀ a b : Nat,
      counts.foldl (fun acc p => (acc.1 + p.2, if acc.2 < p.2 then p.2 else acc.2)) (a, b)
        = (a + (counts.map Prod.snd).sum, max b ((counts.map Prod.snd).foldr max 0)) by
    simpa using h 0 0
  induction counts with
  | nil =>
    intro a b
    simp
  | cons p l ih =>
    intro a b
    simp only [List.foldl_cons, List.map_cons, List.sum_cons, List.foldr_cons]
    have h1 : (if b < p.2 then p.2 else b) = max b p.2 := by
      split <;> omega
    rw [h1, ih (a + p.2) (max b p.2), Nat.add_assoc, Nat.max_assoc]

/-! Section: Claim theorems for the statistics analyzer -/

/-- C4: called with `total_shots = 0`, the statistics analyzer does not fail
with an `InvalidArgument`-class error: the source divides by zero unchecked,
so the returned report carries non-finite values (modelled as `none`) for
`success_probability`, `max_amplitude` and `entropy`.  This documents the
divergence between the claim (fail fast) and the code (silent NaN/Inf). -/
theorem analyze_zero_shots_not_error :
    (analyze_measurement_statistics [("0", 1)] [] 0).success_probability = none
  ∧ (analyze_measurement_statistics [("0", 1)] [] 0).max_amplitude = none
  ∧ (analyze_measurement_statistics [("0", 1)] [] 0).entropy = none := by
  refine ⟨?_, ?_, ?_⟩ <;>
    simp [analyze_measurement_statistics, qdiv, calculate_shannon_entropy, scan_counts]

/-- C5: for positive `total_shots`, `success_probability` is the sum of all
histogram counts over `total_shots` (every recorded outcome counts, regardless
of `expected_matches`), `max_amplitude` is the single largest count over
`total_shots`, `num_unique_states` is the number of distinct outcome labels,
and an empty histogram yields `0` for all four reported metrics. -/
theorem analyze_statistics_spec (counts : List (String × Nat)) (em : List Int)
    (ts : Int) (hts : 0 < ts) :
    (analyze_measurement_statistics counts em ts).success_probability
        = some (((counts.map Prod.snd).sum : ℚ) / (ts : ℚ))
  ∧ (analyze_measurement_statistics counts em ts).max_amplitude
        = some ((((counts.map Prod.snd).foldr max 0 : Nat) : ℚ) / (ts : ℚ))
  ∧ ((counts.map Prod.fst).Nodup →
      (analyze_measurement_statistics counts em ts).num_unique_states
        = ((counts.map Prod.fst).dedup.length : ℚ))
  ∧ (counts = [] →
        (analyze_measurement_statistics counts em ts).success_probability = some 0
      ∧ (analyze_measurement_statistics counts em ts).max_amplitude = some 0
      ∧ (analyze_measurement_statistics counts em ts).entropy = some 0
      ∧ (analyze_measurement_statistics counts em ts).num_unique_states = 0) := by
  have hts0 : (ts : ℚ) ≠ 0 := Int.cast_ne_zero.mpr (by omega)
  refine ⟨?_, ?_, ?_, ?_⟩
  · simp [analyze_measurement_statistics, scan_counts_eq, qdiv, hts0]
  · simp [analyze_measurement_statistics, scan_counts_eq, qdiv, hts0]
  · intro hnd
    simp only [analyze_measurement_statistics]
    rw [hnd.dedup]
    simp
  · rintro rfl
    refine ⟨?_, ?_, ?_, ?_⟩ <;>
      simp [analyze_measurement_statistics, scan_counts_eq, qdiv, hts0,
        calculate_shannon_entropy]

theorem analyze_statistics_spec_witness :
    (analyze_measurement_statistics [("000", 40), ("111", 60)] [] 100).success_probability
        = some (((([("000", 40), ("111", 60)].map Prod.snd).sum : Nat) : ℚ) / ((100 : Int) : ℚ))
  ∧ (analyze_measurement_statistics ([] : List (String × Nat)) [] 100).entropy = some 0 :=
  ⟨(analyze_statistics_spec [("000", 40), ("111", 60)] [] 100 (by norm_num)).1,
   ((analyze_statistics_spec [] [] 100 (by norm_num)).2.2.2 rfl).2.2.1⟩

/-! Section: Claim theorem for the iteration calculator -/

/-- C6: `calculate_optimal_iterations` returns `1` whenever `marked_items ≤ 0`
or `total_items ≤ 0`, and otherwise `max 1 ⌊(π/4)·√(total/marked)⌋`; in
particular it returns `25` on `(1024, 1)` and `1` on `(0, 5)`. -/
theorem calculate_optimal_iterations_spec :
    (∀ t m : Int, m ≤ 0 ∨ t ≤ 0 → calculate_optimal_iterations t m = 1)
  ∧ (∀ t m : Int, 0 < t → 0 < m →
      calculate_optimal_iterations t m =
        max 1 ⌊(Real.pi / 4) * Real.sqrt ((t : ℝ) / (m : ℝ))⌋)
  ∧ calculate_optimal_iterations 1024 1 = 25
  ∧ calculate_optimal_iterations 0 5 = 1 := by
  have hmain : ∀ t m : Int, 0 < t → 0 < m →
      calculate_optimal_iterations t m =
        max 1 ⌊(Real.pi / 4) * Real.sqrt ((t : ℝ) / (m : ℝ))⌋ := by
    intro t m ht hm
    unfold calculate_optimal_iterations
    rw [if_neg (by omega)]
  refine ⟨?_, hmain, ?_, ?_⟩
  · intro t m h
    unfold calculate_optimal_iterations
    rw [if_pos h]
  · rw [hmain 1024 1 (by norm_num) (by norm_num)]
    have hsq : Real.sqrt (((1024 : Int) : ℝ) / ((1 : Int) : ℝ)) = 32 := by
      have h1 : (((1024 : Int) : ℝ) / ((1 : Int) : ℝ)) = (32 : ℝ) ^ 2 := by norm_num
      rw [h1, Real.sqrt_sq (by norm_num : (0 : ℝ) ≤ 32)]
    rw [hsq]
    have h8 : Real.pi / 4 * 32 = 8 * Real.pi := by ring
    have hfloor : ⌊Real.pi / 4 * 32⌋ = (25 : Int) := by
      rw [h8, Int.floor_eq_iff]
      have hpi₁ := Real.pi_gt_d6
      have hpi₂ := Real.pi_lt_d2
      constructor
      · push_cast
        linarith
      · push_cast
        linarith
    rw [hfloor]
    norm_num
  · unfold calculate_optimal_iterations
    rw [if_pos (Or.inr (by norm_num))]

theorem calculate_optimal_iterations_spec_witness :
    calculate_optimal_iterations (-7) 2 = 1
  ∧ calculate_optimal_iterations 4 1 =
      max 1 ⌊(Real.pi / 4) * Real.sqrt (((4 : Int) : ℝ) / ((1 : Int) : ℝ))⌋ :=
  ⟨calculate_optimal_iterations_spec.1 (-7) 2 (Or.inr (by norm_num)),
   calculate_optimal_iterations_spec.2.1 4 1 (by norm_num) (by norm_num)⟩

end GroverAccelerator
